import Mathlib

/-!
Verification development for the yuleq audio A/B loop player (src/yuleq.c).

The embedding models the player state (`struct player`), the cross-fade
window generation (`gen_window`), the in-place blend (`apply_window`), the
audio callback (`process`), the key-command dispatch of the control loop in
`main`, the load-time zero padding of `load_tracks`, and the pinned
Fisher-Yates shuffle of `shuffle_tracks`.

Conventions of the embedding:
- C `int` fields become `Int`; frame counts and array sizes become `Nat`.
- 32-bit float samples are modelled as real numbers; a PCM buffer is a
  total function from (pointer-arithmetic) sample index to sample value.
- The output buffer handed to the callback has arbitrary prior contents
  `out0`; the callback overwrites the first `n * channels` slots exactly
  as the C code does and leaves the rest untouched.
-/

/-- LATENCY constant: audio buffer size in milliseconds. -/
def LATENCY : Nat := 20

/-- STEP constant: loop adjustment step in milliseconds. -/
def STEP : Nat := 50

/-- MAX_TRACKS constant: maximum number of input files. -/
def MAX_TRACKS : Nat := 10

/-- Mirror of `struct player`.  `window` is the fade-coefficient buffer
owned by the player; a PCM sample is a real number. -/
structure Player where
  track : Nat
  next : Nat
  pos : Int
  start : Int
  «end» : Int
  length : Int
  channels : Nat
  samplerate : Nat
  running : Bool
  paused : Bool
  window : Nat → ℝ

/-- Frame count of the fade window, `LATENCY * samplerate / 1000`, as
computed inside `gen_window` (line 203) and `apply_window` (line 218). -/
def fadeFrames (sr : Nat) : Nat := LATENCY * sr / 1000

/-- Frame count per callback invocation, `LATENCY * sr / 1000`, as computed
in `start_stream` (line 277) and passed to `Pa_OpenStream`; the audio
library then invokes the callback with exactly this frame count. -/
def streamFrames (sr : Nat) : Nat := LATENCY * sr / 1000

/-- Loop adjustment step in frames, `STEP * samplerate / 1000` (line 586). -/
def stepFrames (sr : Nat) : Nat := STEP * sr / 1000

/-- Coefficient buffer produced by `gen_window` (lines 201-213): slot
`i * ch + c` (frame `i`, channel `c < ch`) holds
`0.5 + 0.5 * cos (pi * i / n)` where `n = fadeFrames sr`.  The frame index
of slot `idx` is recovered as `idx / ch`. -/
noncomputable def gen_window_coef (n ch : Nat) (idx : Nat) : ℝ :=
  0.5 + 0.5 * Real.cos (Real.pi * ((idx / ch : Nat) : ℝ) / (n : ℝ))

/-- Mirror of `gen_window`: regenerates `player.window` from the output
channel count and sample rate. -/
noncomputable def gen_window (p : Player) : Player :=
  { p with window := gen_window_coef (fadeFrames p.samplerate) p.channels }

/-- Mirror of `apply_window` (lines 216-224): in-place cross-fade
`out[i] = win[i] * out[i] + (1 - win[i]) * in[i]` for
`i < (LATENCY * sr / 1000) * ch`; slots beyond the loop bound keep their
previous contents. -/
def apply_window (sr ch : Nat) (win out inp : Nat → ℝ) : Nat → ℝ :=
  fun i => if i < fadeFrames sr * ch then win i * out i + (1 - win i) * inp i else out i

/-- Pointer `tracks[t].pcm + off` viewed as a buffer: slot `i` is sample
`off + i` of track `t`. -/
def trackAt (tracks : Nat → Int → ℝ) (t : Nat) (off : Int) : Nat → ℝ :=
  fun i => tracks t (off + i)

/-- The `memset(out, 0, n * ch * sizeof(float))` of the paused branch. -/
def memsetZero (len : Nat) (out0 : Nat → ℝ) : Nat → ℝ :=
  fun i => if i < len then 0 else out0 i

/-- The `memcpy(out, in, n * ch * sizeof(float))` copying the current
track into the output buffer. -/
def memcpyN (len : Nat) (src out0 : Nat → ℝ) : Nat → ℝ :=
  fun i => if i < len then src i else out0 i

/-- Steps 2-3 of the callback: copy `n` frames of the current track at
`pos`, then, if a switch is armed (`track != next`), cross-fade with the
next track at the same `pos` and commit `track = next` (lines 237-244). -/
def processSwitch (tracks : Nat → Int → ℝ) (p : Player) (n : Nat) (out0 : Nat → ℝ) :
    Player × (Nat → ℝ) :=
  let ch := p.channels
  let out := memcpyN (n * ch) (trackAt tracks p.track (p.pos * ch)) out0
  if p.track ≠ p.next then
    ({ p with track := p.next },
      apply_window p.samplerate ch p.window out (trackAt tracks p.next (p.pos * ch)))
  else
    (p, out)

/-- Mirror of the audio callback `process` (lines 227-255): silence while
paused; otherwise copy, optional switch cross-fade, `pos += n`, and on
crossing the loop end a wrap cross-fade with the current track at `start`
together with `pos = start + n`. -/
def process (tracks : Nat → Int → ℝ) (p : Player) (n : Nat) (out0 : Nat → ℝ) :
    Player × (Nat → ℝ) :=
  if p.paused then
    (p, memsetZero (n * p.channels) out0)
  else
    let q := processSwitch tracks p n out0
    let p2 : Player := { q.1 with pos := p.pos + (n : Int) }
    if p2.pos > p2.«end» then
      ({ p2 with pos := p2.start + n },
        apply_window p.samplerate p.channels p.window q.2
          (trackAt tracks p2.track (p2.start * p.channels)))
    else
      (p2, q.2)

/-- Key dispatch of the control loop in `main` (lines 591-637).  `numFiles`
is `arg.num_files`, `step` the loop adjustment step in frames. -/
def keyCommand (numFiles : Nat) (step : Int) (c : Char) (p : Player) : Player :=
  if c = ' ' then { p with paused := !p.paused }
  else if '0' ≤ c ∧ c ≤ '9' then
    let d : Nat := if c = '0' then 10 else c.toNat - '0'.toNat
    if d ≤ numFiles then { p with next := d - 1 } else p
  else if c = 'c' then { p with «end» := p.length }
  else if c = 'd' then { p with «end» := p.pos }
  else if c = 'i' then { p with start := max (p.start - step) 0 }
  else if c = 'k' then { p with «end» := max (p.«end» - step) p.start }
  else if c = 'l' then { p with «end» := min (p.«end» + step) p.length }
  else if c = 'o' then { p with start := min (p.start + step) p.«end» }
  else if c = 'q' then { p with running := false }
  else if c = 's' then { p with start := p.pos }
  else if c = 'x' then { p with start := 0 }
  else p

/-- Player state at stream start: the globals are zero-initialized, then
`load_tracks` sets `length`/`channels`/`samplerate` from the first track,
`gen_window` fills the window, and `start_stream` sets `end = length` and
`running = true` (lines 279-280). -/
noncomputable def initPlayer (len : Int) (ch sr : Nat) : Player :=
  gen_window
    { track := 0, next := 0, pos := 0, start := 0, «end» := len, length := len,
      channels := ch, samplerate := sr, running := true, paused := false,
      window := fun _ => 0 }

/-- States of the player reachable after stream start through any
interleaving of audio-callback invocations and control-loop key commands.
The key step uses the step quantum `stepFrames sr` computed in `main`. -/
inductive Reach (tracks : Nat → Int → ℝ) (numFiles : Nat) (len : Int) (ch sr n : Nat) :
    Player → Prop
  | init : Reach tracks numFiles len ch sr n (initPlayer len ch sr)
  | key (p : Player) (c : Char) :
      Reach tracks numFiles len ch sr n p →
      Reach tracks numFiles len ch sr n (keyCommand numFiles (stepFrames sr) c p)
  | callback (p : Player) (out0 : Nat → ℝ) :
      Reach tracks numFiles len ch sr n p →
      Reach tracks numFiles len ch sr n (process tracks p n out0).1

/-- The loop-region invariant claimed by the spec. -/
def LoopInv (p : Player) : Prop :=
  0 ≤ p.start ∧ p.start ≤ p.pos ∧ p.pos ≤ p.«end» ∧ p.«end» ≤ p.length

/-- Frame count of a track's PCM buffer after the zero padding of
`load_tracks` (lines 418-426): `samples = LATENCY * sr / 1000`, plus
`refLen - tLen` when the track is shorter than the reference, appended to
the track's own `tLen` frames. -/
def paddedFrames (sr refLen tLen : Nat) : Nat :=
  tLen + (LATENCY * sr / 1000 + (if tLen < refLen then refLen - tLen else 0))

/-- One in-place swap of the `shuffle_tracks` loop body (lines 436-438). -/
def swapIdx {α : Type} (f : Nat → α) (i j : Nat) : Nat → α :=
  fun k => if k = i then f j else if k = j then f i else f k

/-- The random draw of line 435: `i + (int)(rand / (RAND_MAX + 1.0) * (n - i))`
with `rand = r i < R = RAND_MAX + 1`; the exact rational value floors to
`i + r i * (n - i) / R`. -/
def drawIdx (r : Nat → Nat) (R n i : Nat) : Nat := i + r i * (n - i) / R

/-- Mirror of `shuffle_tracks` (lines 430-440): Fisher-Yates over
`[skipFirst ? 1 : 0, n - 1)`, swapping slot `i` with the drawn slot. -/
def shuffle_tracks {α : Type} (r : Nat → Nat) (R n : Nat) (skipFirst : Bool)
    (f : Nat → α) : Nat → α :=
  let lo := if skipFirst then 1 else 0
  List.foldl (fun g i => swapIdx g i (drawIdx r R n i)) f (List.range' lo (n - 1 - lo))

/-- Concrete two-track session used to exhibit the double-blend of a
switch and a wrap in the same invocation: track 1 holds sample value 4 at
frame 1, all other samples are silent. -/
def tracksTwo : Nat → Int → ℝ :=
  fun t z => if t = 1 ∧ z = 1 then 4 else 0

/-- Concrete player for the double-blend scenario: mono, samplerate 100
(so the fade window and the callback are 2 frames), switch armed from
track 0 to track 1, loop end at frame 1 so that advancing by 2 wraps. -/
noncomputable def playerTwo : Player :=
  { track := 0, next := 1, pos := 0, start := 0, «end» := 1, length := 1000,
    channels := 1, samplerate := 100, running := true, paused := false,
    window := gen_window_coef (fadeFrames 100) 1 }

/-- Concrete player with `pos < start`, the configuration under which the
unclamped set-end command violates `start ≤ end`. -/
def playerBehindStart : Player :=
  { track := 0, next := 0, pos := 1, start := 2, «end» := 5, length := 10,
    channels := 2, samplerate := 48000, running := true, paused := false,
    window := fun _ => 0 }

/-- Concrete running player used to instantiate hypotheses of the callback
theorems. -/
def playerRun : Player :=
  { track := 0, next := 0, pos := 100, start := 0, «end» := 1000, length := 1000,
    channels := 2, samplerate := 100, running := true, paused := false,
    window := fun _ => 0 }

/-- Concrete player with a switch armed (`track = 0`, `next = 1`) far from
the loop end, used to instantiate the switch cross-fade theorem. -/
def playerArmed : Player :=
  { track := 0, next := 1, pos := 10, start := 0, «end» := 1000, length := 1000,
    channels := 1, samplerate := 100, running := true, paused := false,
    window := fun _ => 0 }

/-! ## Claim C7: blending a buffer with itself is the identity -/

/-- C7: blending a buffer with itself is the identity: for every
coefficient window and every sample value, `out = w * out + (1 - w) * in`
with `in` aliasing `out` leaves every sample of `out` unchanged (samples
modelled as real numbers). -/
theorem blend_self_identity (sr ch : Nat) (win out : Nat → ℝ) :
    apply_window sr ch win out out = out := by
  funext i
  unfold apply_window
  split
  · ring
  · rfl

/-! ## Claim C10: fade window and callback buffer use the same frame count -/

/-- C10: the cross-fade frame count of `gen_window`/`apply_window` and the
per-callback frame count of `start_stream` are computed by the same
formula `LATENCY * samplerate / 1000` and are equal; consequently
`apply_window` never writes a slot at or beyond `streamFrames sr * ch`,
and it blends exactly every slot below that bound. -/
theorem window_spans_callback (sr ch : Nat) (win out inp : Nat → ℝ) :
    streamFrames sr = fadeFrames sr ∧
    (∀ i, streamFrames sr * ch ≤ i → apply_window sr ch win out inp i = out i) ∧
    (∀ i, i < streamFrames sr * ch →
      apply_window sr ch win out inp i = win i * out i + (1 - win i) * inp i) := by
  refine ⟨rfl, fun i hi => ?_, fun i hi => ?_⟩
  · have hi' : fadeFrames sr * ch ≤ i := hi
    unfold apply_window
    rw [if_neg (by exact Nat.not_lt.mpr hi')]
  · have hi' : i < fadeFrames sr * ch := hi
    unfold apply_window
    rw [if_pos hi']

/-- Witness for C10 at `sr = 48000`, `ch = 2` (so 960 frames, 1920 slots):
slot 1920 is untouched and slot 0 is blended. -/
theorem window_spans_callback_witness :
    (streamFrames 48000 * 2 ≤ 1920 ∧
      apply_window 48000 2 (fun _ => 0) (fun _ => 1) (fun _ => 0) 1920 =
        (fun _ => (1 : ℝ)) 1920) ∧
    (0 < streamFrames 48000 * 2 ∧
      apply_window 48000 2 (fun _ => 0) (fun _ => 1) (fun _ => 0) 0 =
        (fun _ => (0 : ℝ)) 0 * (fun _ => (1 : ℝ)) 0 +
          (1 - (fun _ => (0 : ℝ)) 0) * (fun _ => (0 : ℝ)) 0) :=
  ⟨⟨by norm_num [streamFrames, LATENCY],
    (window_spans_callback 48000 2 _ _ _).2.1 1920 (by norm_num [streamFrames, LATENCY])⟩,
   ⟨by norm_num [streamFrames, LATENCY],
    (window_spans_callback 48000 2 _ _ _).2.2 0 (by norm_num [streamFrames, LATENCY])⟩⟩

/-! ## Claim C2: loop operations and the `start ≤ end` order -/

/-- C2 (amended): the clear and nudge operations `clearStart` ('x'),
`clearEnd` ('c'), `nudgeStartDown` ('i'), `nudgeStartUp` ('o'),
`nudgeEndDown` ('k'), `nudgeEndUp` ('l') preserve `start ≤ end`; the
unclamped `setEnd` ('d') preserves it exactly when `start ≤ pos`, and the
unclamped `setStart` ('s') exactly when `pos ≤ end`. -/
theorem loop_ops_preserve_order (nf : Nat) (step : Int) (p : Player)
    (hstep : 0 ≤ step) (h0 : 0 ≤ p.start) (hse : p.start ≤ p.«end»)
    (hsl : p.start ≤ p.length) :
    (∀ c, c = 'c' ∨ c = 'i' ∨ c = 'k' ∨ c = 'l' ∨ c = 'o' ∨ c = 'x' →
      (keyCommand nf step c p).start ≤ (keyCommand nf step c p).«end») ∧
    (p.start ≤ p.pos →
      (keyCommand nf step 'd' p).start ≤ (keyCommand nf step 'd' p).«end») ∧
    (p.pos ≤ p.«end» →
      (keyCommand nf step 's' p).start ≤ (keyCommand nf step 's' p).«end») := by
  refine ⟨fun c hc => ?_, fun hd => ?_, fun hs => ?_⟩
  · rcases hc with rfl | rfl | rfl | rfl | rfl | rfl
    · rw [show keyCommand nf step 'c' p = { p with «end» := p.length } from rfl]
      exact hsl
    · rw [show keyCommand nf step 'i' p =
        { p with start := max (p.start - step) 0 } from rfl]
      simp only [max_le_iff]
      constructor
      · omega
      · exact le_trans h0 hse
    · rw [show keyCommand nf step 'k' p =
        { p with «end» := max (p.«end» - step) p.start } from rfl]
      exact le_max_right _ _
    · rw [show keyCommand nf step 'l' p =
        { p with «end» := min (p.«end» + step) p.length } from rfl]
      show p.start ≤ min (p.«end» + step) p.length
      exact le_min (by omega) hsl
    · rw [show keyCommand nf step 'o' p =
        { p with start := min (p.start + step) p.«end» } from rfl]
      exact min_le_right _ _
    · rw [show keyCommand nf step 'x' p = { p with start := 0 } from rfl]
      exact le_trans h0 hse
  · rw [show keyCommand nf step 'd' p = { p with «end» := p.pos } from rfl]
    exact hd
  · rw [show keyCommand nf step 's' p = { p with start := p.pos } from rfl]
    exact hs

/-- Witness for C2 at a concrete in-order player state and `step = 5`. -/
theorem loop_ops_preserve_order_witness :
    ((0 : Int) ≤ 5 ∧ 0 ≤ playerRun.start ∧ playerRun.start ≤ playerRun.«end» ∧
      playerRun.start ≤ playerRun.length) ∧
    (keyCommand 10 5 'o' playerRun).start ≤ (keyCommand 10 5 'o' playerRun).«end» :=
  ⟨by decide,
   (loop_ops_preserve_order 10 5 playerRun (by decide) (by decide) (by decide)
      (by decide)).1 'o' (by decide)⟩

/-- Counterexample to C2 as stated: from the state `playerBehindStart`
with `start = 2 ≤ end = 5` and `pos = 1 < start`, the `setEnd` command
('d', line 614) sets `end = pos = 1 < 2 = start`, so applying `setEnd`
when `pos < start` does violate `start ≤ end`. -/
theorem setEnd_breaks_order :
    playerBehindStart.start ≤ playerBehindStart.«end» ∧
    playerBehindStart.pos < playerBehindStart.start ∧
    ¬ (keyCommand 10 5 'd' playerBehindStart).start ≤
        (keyCommand 10 5 'd' playerBehindStart).«end» := by
  decide

/-! ## Claim C8: load-time zero padding keeps wrap reads in bounds -/

/-- C8: a track shorter than the reference is padded so that its buffer
holds at least `refLen + fadeFrames sr` frames, and a loop-wrap cross-fade
whose loop region `[s, e]` lies within the last `fadeFrames sr` frames of
the reference length reads only frames `s, ..., s + fadeFrames sr - 1`,
all below the padded buffer length. -/
theorem padding_keeps_wrap_reads_in_bounds (sr refLen tLen s e : Nat)
    (hshort : tLen < refLen) (hwin : refLen - fadeFrames sr ≤ s)
    (hse : s ≤ e) (he : e ≤ refLen) :
    refLen + fadeFrames sr ≤ paddedFrames sr refLen tLen ∧
    s + fadeFrames sr ≤ paddedFrames sr refLen tLen := by
  unfold paddedFrames fadeFrames LATENCY at *
  rw [if_pos hshort]
  omega

/-- Witness for C8: samplerate 48000 (960-frame window), reference length
5000, track length 1000, loop region `[4500, 5000]`. -/
theorem padding_keeps_wrap_reads_in_bounds_witness :
    (1000 < 5000 ∧ 5000 - fadeFrames 48000 ≤ 4500 ∧ 4500 ≤ 5000 ∧ 5000 ≤ 5000) ∧
    (5000 + fadeFrames 48000 ≤ paddedFrames 48000 5000 1000 ∧
      4500 + fadeFrames 48000 ≤ paddedFrames 48000 5000 1000) :=
  ⟨by decide,
   padding_keeps_wrap_reads_in_bounds 48000 5000 1000 4500 5000 (by decide)
     (by decide) (by decide) (by decide)⟩

/-! ## Characterization of the callback -/

/-- Helper: the copy-and-switch phase never changes `pos`, `start`, `end`,
or the format fields, and always leaves `track = next` (when no switch is
armed, `track` already equals `next`). -/
theorem processSwitch_fst (tracks : Nat → Int → ℝ) (p : Player) (n : Nat)
    (out0 : Nat → ℝ) :
    (processSwitch tracks p n out0).1 = { p with track := p.next } := by
  unfold processSwitch
  by_cases h : p.track ≠ p.next
  · simp only [if_pos h]
  · simp only [if_neg h]
    push_neg at h
    cases p
    simp_all

/-- Helper: while paused, the callback returns the state unchanged and
writes `n * channels` zeros. -/
theorem process_paused (tracks : Nat → Int → ℝ) (q : Player) (n : Nat)
    (out0 : Nat → ℝ) (hq : q.paused = true) :
    process tracks q n out0 = (q, memsetZero (n * q.channels) out0) := by
  unfold process
  rw [hq]
  simp

/-- Helper: closed form of a non-paused callback invocation, split on
whether the advanced position crosses the loop end. -/
theorem process_eq (tracks : Nat → Int → ℝ) (p : Player) (n : Nat) (out0 : Nat → ℝ)
    (hp : p.paused = false) :
    process tracks p n out0 =
      if p.pos + (n : Int) > p.«end» then
        ({ p with track := p.next, pos := p.start + (n : Int) },
          apply_window p.samplerate p.channels p.window
            (processSwitch tracks p n out0).2
            (trackAt tracks p.next (p.start * p.channels)))
      else
        ({ p with track := p.next, pos := p.pos + (n : Int) },
          (processSwitch tracks p n out0).2) := by
  have hq := processSwitch_fst tracks p n out0
  unfold process
  rw [hp]
  simp only [Bool.false_eq_true, if_false, hq]
  rw [hp]

/-! ## Claim C3: loop-wrap cross-fade -/

/-- C3: in a non-paused invocation, when the advance of `pos` by `n`
crosses the loop boundary (`pos + n > end`) the callback cross-fades the
output produced so far with the fade window read from the (now current)
track's buffer starting at frame `start`, and sets `pos = start + n`;
otherwise no wrap blend occurs, the output is exactly the copy-and-switch
output, and `pos` is simply advanced by `n`. -/
theorem wrap_crossfade (tracks : Nat → Int → ℝ) (p : Player) (n : Nat)
    (out0 : Nat → ℝ) (hp : p.paused = false) :
    (p.pos + (n : Int) > p.«end» →
      (process tracks p n out0).1.pos = p.start + (n : Int) ∧
      (process tracks p n out0).2 =
        apply_window p.samplerate p.channels p.window
          (processSwitch tracks p n out0).2
          (trackAt tracks (processSwitch tracks p n out0).1.track
            (p.start * p.channels))) ∧
    (p.pos + (n : Int) ≤ p.«end» →
      (process tracks p n out0).1.pos = p.pos + (n : Int) ∧
      (process tracks p n out0).2 = (processSwitch tracks p n out0).2) := by
  rw [process_eq tracks p n out0 hp, processSwitch_fst tracks p n out0]
  constructor
  · intro hw
    rw [if_pos hw]
    exact ⟨rfl, rfl⟩
  · intro hw
    rw [if_neg (by exact not_lt.mpr hw)]
    exact ⟨rfl, rfl⟩

/-- Witness for C3: the running player at `pos = 100`, `end = 1000`,
advanced by `n = 50` frames, does not wrap. -/
theorem wrap_crossfade_witness :
    playerRun.paused = false ∧
    playerRun.pos + ((50 : Nat) : Int) ≤ playerRun.«end» ∧
    (process tracksTwo playerRun 50 (fun _ => 0)).1.pos =
      playerRun.pos + ((50 : Nat) : Int) ∧
    (process tracksTwo playerRun 50 (fun _ => 0)).2 =
      (processSwitch tracksTwo playerRun 50 (fun _ => 0)).2 :=
  ⟨rfl, by decide,
   ((wrap_crossfade tracksTwo playerRun 50 (fun _ => 0) rfl).2 (by decide)).1,
   ((wrap_crossfade tracksTwo playerRun 50 (fun _ => 0) rfl).2 (by decide)).2⟩

/-! ## Claim C4: pause produces silence and resumes in place -/

/-- C4: while paused every invocation writes zeros to all `n * channels`
output slots and leaves the whole state (in particular `pos`, `track`,
`next`) unchanged; toggling pause on a running player, invoking the
callback any number of times, and toggling pause again restores exactly
the pre-pause state, so the next invocation is identical to the one an
uninterrupted run would have produced. -/
theorem pause_silence_and_resume (tracks : Nat → Int → ℝ) (nf : Nat) (st : Int)
    (n : Nat) (out0 : Nat → ℝ) (p : Player) (hp : p.paused = false) :
    (∀ q : Player, q.paused = true →
      (process tracks q n out0).1 = q ∧
      ∀ i, i < n * q.channels → (process tracks q n out0).2 i = 0) ∧
    (∀ k, (fun q => (process tracks q n out0).1)^[k] (keyCommand nf st ' ' p) =
      keyCommand nf st ' ' p) ∧
    keyCommand nf st ' ' (keyCommand nf st ' ' p) = p ∧
    (∀ k, process tracks
        (keyCommand nf st ' '
          ((fun q => (process tracks q n out0).1)^[k] (keyCommand nf st ' ' p)))
        n out0 = process tracks p n out0) := by
  have hsil : ∀ q : Player, q.paused = true →
      (process tracks q n out0).1 = q ∧
      ∀ i, i < n * q.channels → (process tracks q n out0).2 i = 0 := by
    intro q hq
    rw [process_paused tracks q n out0 hq]
    exact ⟨rfl, fun i hi => if_pos hi⟩
  have htog : keyCommand nf st ' ' p = { p with paused := true } := by
    rw [show keyCommand nf st ' ' p = { p with paused := !p.paused } from rfl, hp]
    rfl
  have hiter : ∀ k,
      (fun q => (process tracks q n out0).1)^[k] (keyCommand nf st ' ' p) =
        keyCommand nf st ' ' p := by
    intro k
    induction k with
    | zero => rfl
    | succ m ih =>
        rw [Function.iterate_succ_apply', ih]
        exact (hsil _ (by rw [htog])).1
  have hback : keyCommand nf st ' ' (keyCommand nf st ' ' p) = p := by
    rw [htog,
      show keyCommand nf st ' ' { p with paused := true } =
        { p with paused := !true } from rfl]
    cases p
    simp only at hp
    simp [hp]
  refine ⟨hsil, hiter, hback, fun k => ?_⟩
  rw [hiter k, hback]

/-- Witness for C4 on the concrete running (non-paused) player. -/
theorem pause_silence_and_resume_witness :
    playerRun.paused = false ∧
    keyCommand 10 5 ' ' (keyCommand 10 5 ' ' playerRun) = playerRun ∧
    (∀ k, process tracksTwo
        (keyCommand 10 5 ' '
          ((fun q => (process tracksTwo q 50 (fun _ => 0)).1)^[k]
            (keyCommand 10 5 ' ' playerRun)))
        50 (fun _ => 0) = process tracksTwo playerRun 50 (fun _ => 0)) :=
  ⟨rfl,
   (pause_silence_and_resume tracksTwo 10 5 50 (fun _ => 0) playerRun rfl).2.2.1,
   (pause_silence_and_resume tracksTwo 10 5 50 (fun _ => 0) playerRun rfl).2.2.2⟩

/-! ## Claim C5: armed track switch cross-fades at identical position -/

/-- C5 (amended): when a switch is armed (`next != current`) and the
player is not paused, the invocation commits `current = next`; and
provided the advanced position does not cross the loop end
(`pos + n ≤ end`, so no wrap blend is stacked on top), every window slot
`i` of the output equals
`w[i] * current[pos * ch + i] + (1 - w[i]) * next[pos * ch + i]`, both
tracks read at the identical position `pos`.  `n` is the per-callback
frame count negotiated by `start_stream`. -/
theorem armed_switch_blend (tracks : Nat → Int → ℝ) (p : Player) (n : Nat)
    (out0 : Nat → ℝ) (hp : p.paused = false) (ha : p.track ≠ p.next)
    (hn : n = streamFrames p.samplerate) :
    (process tracks p n out0).1.track = p.next ∧
    (p.pos + (n : Int) ≤ p.«end» →
      ∀ i, i < fadeFrames p.samplerate * p.channels →
        (process tracks p n out0).2 i =
          p.window i * tracks p.track (p.pos * p.channels + i) +
            (1 - p.window i) * tracks p.next (p.pos * p.channels + i)) := by
  rw [process_eq tracks p n out0 hp]
  constructor
  · by_cases hw : p.pos + (n : Int) > p.«end»
    · rw [if_pos hw]
    · rw [if_neg hw]
  · intro hw i hi
    rw [if_neg (by exact not_lt.mpr hw)]
    have hpsw : (processSwitch tracks p n out0).2 =
        apply_window p.samplerate p.channels p.window
          (memcpyN (n * p.channels) (trackAt tracks p.track (p.pos * p.channels)) out0)
          (trackAt tracks p.next (p.pos * p.channels)) := by
      unfold processSwitch
      rw [if_pos ha]
    rw [hpsw]
    unfold apply_window
    rw [if_pos hi]
    have hin : i < n * p.channels := by
      rw [hn]
      exact hi
    unfold memcpyN
    rw [if_pos hin]
    rfl

/-- Witness for C5: armed mono player at samplerate 100 (2-frame window
and callback), far from the loop end; slot 0 of the output is the blend of
the two tracks at position 10. -/
theorem armed_switch_blend_witness :
    (playerArmed.paused = false ∧ playerArmed.track ≠ playerArmed.next ∧
      (2 : Nat) = streamFrames playerArmed.samplerate ∧
      playerArmed.pos + ((2 : Nat) : Int) ≤ playerArmed.«end» ∧
      (0 : Nat) < fadeFrames playerArmed.samplerate * playerArmed.channels) ∧
    (process tracksTwo playerArmed 2 (fun _ => 0)).1.track = playerArmed.next ∧
    (process tracksTwo playerArmed 2 (fun _ => 0)).2 0 =
      playerArmed.window 0 *
          tracksTwo playerArmed.track (playerArmed.pos * playerArmed.channels + 0) +
        (1 - playerArmed.window 0) *
          tracksTwo playerArmed.next (playerArmed.pos * playerArmed.channels + 0) :=
  ⟨⟨rfl, by decide, rfl, by decide, by decide⟩,
   (armed_switch_blend tracksTwo playerArmed 2 (fun _ => 0) rfl (by decide) rfl).1,
   (armed_switch_blend tracksTwo playerArmed 2 (fun _ => 0) rfl (by decide) rfl).2
     (by decide) 0 (by decide)⟩

/-- Counterexample to C5 as stated: in `playerTwo` a switch (0 to 1) is
armed, the player is not paused, and slot 1 lies inside the fade window,
yet the invocation's output at slot 1 is 3, not the claimed
`w[1] * track0[1] + (1 - w[1]) * track1[1] = 2`, because the loop wrap
fires in the same invocation and blends a second time on top of the
switch blend. -/
theorem armed_switch_blend_cex :
    playerTwo.paused = false ∧ playerTwo.track ≠ playerTwo.next ∧
    (2 : Nat) = streamFrames playerTwo.samplerate ∧
    (1 : Nat) < fadeFrames playerTwo.samplerate * playerTwo.channels ∧
    (process tracksTwo playerTwo 2 (fun _ => 0)).2 1 ≠
      playerTwo.window 1 *
          tracksTwo playerTwo.track (playerTwo.pos * playerTwo.channels + 1) +
        (1 - playerTwo.window 1) *
          tracksTwo playerTwo.next (playerTwo.pos * playerTwo.channels + 1) := by
  have hwin : playerTwo.window 1 = 1 / 2 := by
    show gen_window_coef (fadeFrames 100) 1 1 = 1 / 2
    unfold gen_window_coef fadeFrames LATENCY
    norm_num
  refine ⟨rfl, by decide, rfl, by decide, ?_⟩
  have hout : (process tracksTwo playerTwo 2 (fun _ => 0)).2 =
      apply_window playerTwo.samplerate playerTwo.channels playerTwo.window
        (processSwitch tracksTwo playerTwo 2 (fun _ => 0)).2
        (trackAt tracksTwo playerTwo.next
          (playerTwo.start * playerTwo.channels)) := by
    rw [process_eq tracksTwo playerTwo 2 (fun _ => 0) rfl,
      if_pos (by decide : playerTwo.pos + ((2 : Nat) : Int) > playerTwo.«end»)]
  have hpsw : (processSwitch tracksTwo playerTwo 2 (fun _ => 0)).2 =
      apply_window playerTwo.samplerate playerTwo.channels playerTwo.window
        (memcpyN (2 * playerTwo.channels)
          (trackAt tracksTwo playerTwo.track (playerTwo.pos * playerTwo.channels))
          (fun _ => 0))
        (trackAt tracksTwo playerTwo.next
          (playerTwo.pos * playerTwo.channels)) := by
    unfold processSwitch
    rw [if_pos (by decide : playerTwo.track ≠ playerTwo.next)]
  have h1 : (processSwitch tracksTwo playerTwo 2 (fun _ => 0)).2 1 = 2 := by
    rw [hpsw]
    unfold apply_window
    rw [if_pos (by decide : (1 : Nat) < fadeFrames playerTwo.samplerate * playerTwo.channels)]
    unfold memcpyN
    rw [if_pos (by decide : (1 : Nat) < 2 * playerTwo.channels)]
    rw [hwin]
    unfold trackAt tracksTwo
    simp only [show playerTwo.track = 0 from rfl, show playerTwo.next = 1 from rfl,
      show playerTwo.pos = 0 from rfl, show playerTwo.channels = 1 from rfl]
    norm_num
  rw [hout]
  unfold apply_window
  rw [if_pos (by decide : (1 : Nat) < fadeFrames playerTwo.samplerate * playerTwo.channels)]
  rw [h1, hwin]
  unfold trackAt tracksTwo
  simp only [show playerTwo.track = 0 from rfl, show playerTwo.next = 1 from rfl,
    show playerTwo.pos = 0 from rfl, show playerTwo.channels = 1 from rfl,
    show playerTwo.start = 0 from rfl]
  norm_num

/-! ## Claim C1: the loop-region invariant on reachable states -/

/-- Helper: exhaustive case analysis of the key dispatch: every key
command is the identity or one of the eleven mutations of the switch
statement in `main`. -/
theorem keyCommand_cases (nf : Nat) (step : Int) (c : Char) (p : Player) :
    keyCommand nf step c p = { p with paused := !p.paused } ∨
    (∃ d : Nat, keyCommand nf step c p = { p with next := d }) ∨
    keyCommand nf step c p = p ∨
    keyCommand nf step c p = { p with «end» := p.length } ∨
    keyCommand nf step c p = { p with «end» := p.pos } ∨
    keyCommand nf step c p = { p with start := max (p.start - step) 0 } ∨
    (c = 'k' ∧ keyCommand nf step c p = { p with «end» := max (p.«end» - step) p.start }) ∨
    keyCommand nf step c p = { p with «end» := min (p.«end» + step) p.length } ∨
    (c = 'o' ∧ keyCommand nf step c p = { p with start := min (p.start + step) p.«end» }) ∨
    keyCommand nf step c p = { p with start := p.pos } ∨
    keyCommand nf step c p = { p with start := 0 } ∨
    keyCommand nf step c p = { p with running := false } := by
  unfold keyCommand
  by_cases h1 : c = ' '
  · rw [if_pos h1]
    exact Or.inl rfl
  rw [if_neg h1]
  by_cases h2 : '0' ≤ c ∧ c ≤ '9'
  · rw [if_pos h2]
    dsimp only
    by_cases h3 : (if c = '0' then 10 else c.toNat - '0'.toNat) ≤ nf
    · rw [if_pos h3]
      exact Or.inr (Or.inl ⟨_, rfl⟩)
    · rw [if_neg h3]
      exact Or.inr (Or.inr (Or.inl rfl))
  rw [if_neg h2]
  by_cases h3 : c = 'c'
  · rw [if_pos h3]
    exact Or.inr (Or.inr (Or.inr (Or.inl rfl)))
  rw [if_neg h3]
  by_cases h4 : c = 'd'
  · rw [if_pos h4]
    exact Or.inr (Or.inr (Or.inr (Or.inr (Or.inl rfl))))
  rw [if_neg h4]
  by_cases h5 : c = 'i'
  · rw [if_pos h5]
    exact Or.inr (Or.inr (Or.inr (Or.inr (Or.inr (Or.inl rfl)))))
  rw [if_neg h5]
  by_cases h6 : c = 'k'
  · rw [if_pos h6]
    exact Or.inr (Or.inr (Or.inr (Or.inr (Or.inr (Or.inr (Or.inl ⟨h6, rfl⟩))))))
  rw [if_neg h6]
  by_cases h7 : c = 'l'
  · rw [if_pos h7]
    exact Or.inr (Or.inr (Or.inr (Or.inr (Or.inr (Or.inr (Or.inr (Or.inl rfl)))))))
  rw [if_neg h7]
  by_cases h8 : c = 'o'
  · rw [if_pos h8]
    exact Or.inr (Or.inr (Or.inr (Or.inr (Or.inr (Or.inr (Or.inr (Or.inr
      (Or.inl ⟨h8, rfl⟩))))))))
  rw [if_neg h8]
  by_cases h9 : c = 'q'
  · rw [if_pos h9]
    exact Or.inr (Or.inr (Or.inr (Or.inr (Or.inr (Or.inr (Or.inr (Or.inr (Or.inr
      (Or.inr (Or.inr rfl))))))))))
  rw [if_neg h9]
  by_cases h10 : c = 's'
  · rw [if_pos h10]
    exact Or.inr (Or.inr (Or.inr (Or.inr (Or.inr (Or.inr (Or.inr (Or.inr (Or.inr
      (Or.inl rfl)))))))))
  rw [if_neg h10]
  by_cases h11 : c = 'x'
  · rw [if_pos h11]
    exact Or.inr (Or.inr (Or.inr (Or.inr (Or.inr (Or.inr (Or.inr (Or.inr (Or.inr
      (Or.inr (Or.inl rfl))))))))))
  rw [if_neg h11]
  exact Or.inr (Or.inr (Or.inl rfl))

/-- Helper: every key command keeps `start`, `pos`, `end`, `length`
nonnegative when the step quantum is nonnegative. -/
theorem keyCommand_fields_nonneg (nf : Nat) (step : Int) (c : Char) (p : Player)
    (hstep : 0 ≤ step)
    (h : 0 ≤ p.start ∧ 0 ≤ p.pos ∧ 0 ≤ p.«end» ∧ 0 ≤ p.length) :
    0 ≤ (keyCommand nf step c p).start ∧ 0 ≤ (keyCommand nf step c p).pos ∧
      0 ≤ (keyCommand nf step c p).«end» ∧ 0 ≤ (keyCommand nf step c p).length := by
  rcases keyCommand_cases nf step c p with
    h1 | ⟨d, h1⟩ | h1 | h1 | h1 | h1 | ⟨hc, h1⟩ | h1 | ⟨hc, h1⟩ | h1 | h1 | h1 <;>
    rw [h1] <;> (try dsimp only) <;> omega

/-- Helper: the callback keeps `start`, `pos`, `end`, `length`
nonnegative. -/
theorem process_fields_nonneg (tracks : Nat → Int → ℝ) (p : Player) (n : Nat)
    (out0 : Nat → ℝ)
    (h : 0 ≤ p.start ∧ 0 ≤ p.pos ∧ 0 ≤ p.«end» ∧ 0 ≤ p.length) :
    0 ≤ (process tracks p n out0).1.start ∧ 0 ≤ (process tracks p n out0).1.pos ∧
      0 ≤ (process tracks p n out0).1.«end» ∧ 0 ≤ (process tracks p n out0).1.length := by
  by_cases hp : p.paused = true
  · rw [process_paused tracks p n out0 hp]
    exact h
  · rw [process_eq tracks p n out0 (by simpa using hp)]
    split_ifs <;> (try dsimp only) <;> omega

set_option maxHeartbeats 1600000 in
/-- C1 (amended): every state reachable after stream start has
nonnegative `start`, `pos` and `end`; the full chain
`0 ≤ start ≤ pos ≤ end ≤ length` is preserved by every callback
invocation whose loop region is at least `n` frames wide, and by every
key command except `nudgeStartUp` ('o') and `nudgeEndDown` ('k'), which
can move a loop boundary strictly past `pos`.  As stated — for every
reachable state under arbitrary interleaving — the claim fails; see the
counterexample. -/
theorem reachable_bounds_and_preservation (tracks : Nat → Int → ℝ) (nf : Nat)
    (len : Int) (ch sr n : Nat) (hlen : 0 ≤ len) :
    (∀ s, Reach tracks nf len ch sr n s → 0 ≤ s.start ∧ 0 ≤ s.pos ∧ 0 ≤ s.«end») ∧
    (∀ (p : Player) (out0 : Nat → ℝ), LoopInv p → (n : Int) ≤ p.«end» - p.start →
      LoopInv (process tracks p n out0).1) ∧
    (∀ (p : Player) (step : Int) (c : Char), 0 ≤ step → LoopInv p →
      c ≠ 'o' → c ≠ 'k' → LoopInv (keyCommand nf step c p)) := by
  have haux : ∀ s, Reach tracks nf len ch sr n s →
      0 ≤ s.start ∧ 0 ≤ s.pos ∧ 0 ≤ s.«end» ∧ 0 ≤ s.length := by
    intro s hs
    induction hs with
    | init => exact ⟨le_refl 0, le_refl 0, hlen, hlen⟩
    | key p c hp ih =>
        exact keyCommand_fields_nonneg nf _ c p (Int.natCast_nonneg _) ih
    | callback p out0 hp ih => exact process_fields_nonneg tracks p n out0 ih
  refine ⟨fun s hs => ⟨(haux s hs).1, (haux s hs).2.1, (haux s hs).2.2.1⟩, ?_, ?_⟩
  · intro p out0 hInv hn
    unfold LoopInv at *
    by_cases hp : p.paused = true
    · rw [process_paused tracks p n out0 hp]
      exact hInv
    · rw [process_eq tracks p n out0 (by simpa using hp)]
      split_ifs <;> (try dsimp only) <;> omega
  · intro p step c hstep hInv ho hk
    unfold LoopInv at *
    rcases keyCommand_cases nf step c p with
      h1 | ⟨d, h1⟩ | h1 | h1 | h1 | h1 | ⟨hc, h1⟩ | h1 | ⟨hc, h1⟩ | h1 | h1 | h1
    · rw [h1]; dsimp only; omega
    · rw [h1]; dsimp only; omega
    · rw [h1]; omega
    · rw [h1]; dsimp only; omega
    · rw [h1]; dsimp only; omega
    · rw [h1]; dsimp only; omega
    · exact absurd hc hk
    · rw [h1]; dsimp only; omega
    · exact absurd hc ho
    · rw [h1]; dsimp only; omega
    · rw [h1]; dsimp only; omega
    · rw [h1]; dsimp only; omega

/-- Witness for C1 on a concrete session: reference length 1000, mono,
samplerate 44100, 200-frame callbacks. -/
theorem reachable_bounds_witness :
    (0 : Int) ≤ 1000 ∧
    (∀ s, Reach tracksTwo 10 1000 1 44100 200 s →
      0 ≤ s.start ∧ 0 ≤ s.pos ∧ 0 ≤ s.«end») :=
  ⟨by decide,
   (reachable_bounds_and_preservation tracksTwo 10 1000 1 44100 200 (by decide)).1⟩

/-- Counterexample to C1 as stated: from the start state of a session
with `length = 1000` at samplerate 44100 (step quantum 2205 frames), a
single `nudgeStartUp` ('o') key command reaches a state with
`start = min (0 + 2205) 1000 = 1000 > 0 = pos`, violating
`start ≤ pos`. -/
theorem reachable_violates_invariant :
    Reach (fun _ _ => (0 : ℝ)) 10 1000 1 44100 200
      (keyCommand 10 ((stepFrames 44100 : Nat) : Int) 'o' (initPlayer 1000 1 44100)) ∧
    ¬ ((keyCommand 10 ((stepFrames 44100 : Nat) : Int) 'o'
          (initPlayer 1000 1 44100)).start ≤
        (keyCommand 10 ((stepFrames 44100 : Nat) : Int) 'o'
          (initPlayer 1000 1 44100)).pos) :=
  ⟨Reach.key _ 'o' Reach.init, by decide⟩

/-! ## Claim C6: shape of the cross-fade coefficients -/

/-- C6: for any window length `n > 0` and channel count `ch > 0`, slot
`i * ch + c` of the generated coefficients equals
`0.5 + 0.5 * cos (pi * i / n)` — the same value for every channel `c` of
frame `i`; the per-frame sequence is non-increasing in `i`; the first
frame's weight is exactly 1; and the last frame's weight is at most
`pi ^ 2 / (4 * n ^ 2)` (hence close to 0 for realistic window lengths). -/
theorem crossfade_window_spec (n ch : Nat) (hn : 0 < n) (hch : 0 < ch) :
    (∀ i, i < n → ∀ c, c < ch →
      gen_window_coef n ch (i * ch + c) =
        0.5 + 0.5 * Real.cos (Real.pi * (i : ℝ) / (n : ℝ))) ∧
    (∀ i j c, i ≤ j → j < n → c < ch →
      gen_window_coef n ch (j * ch + c) ≤ gen_window_coef n ch (i * ch + c)) ∧
    (∀ c, c < ch → gen_window_coef n ch c = 1) ∧
    (∀ c, c < ch →
      gen_window_coef n ch ((n - 1) * ch + c) ≤
        Real.pi ^ 2 / (4 * (n : ℝ) ^ 2)) := by
  have hn' : (0 : ℝ) < (n : ℝ) := by exact_mod_cast hn
  have hidx : ∀ (i c : Nat), c < ch → (i * ch + c) / ch = i := by
    intro i c hc
    rw [mul_comm, Nat.mul_add_div hch, Nat.div_eq_of_lt hc, Nat.add_zero]
  refine ⟨?_, ?_, ?_, ?_⟩
  · intro i _ c hc
    unfold gen_window_coef
    rw [hidx i c hc]
  · intro i j c hij hj hc
    unfold gen_window_coef
    rw [hidx i c hc, hidx j c hc]
    have hcos : Real.cos (Real.pi * (j : ℝ) / (n : ℝ)) ≤
        Real.cos (Real.pi * (i : ℝ) / (n : ℝ)) := by
      apply Real.cos_le_cos_of_nonneg_of_le_pi
      · positivity
      · rw [div_le_iff hn']
        have hjn : (j : ℝ) ≤ (n : ℝ) := by exact_mod_cast Nat.le_of_lt hj
        nlinarith [Real.pi_pos]
      · have hij' : (i : ℝ) ≤ (j : ℝ) := by exact_mod_cast hij
        have hpi := Real.pi_pos
        gcongr
    linarith
  · intro c hc
    unfold gen_window_coef
    rw [Nat.div_eq_of_lt hc]
    norm_num
  · intro c hc
    unfold gen_window_coef
    rw [hidx (n - 1) c hc]
    have hcast : ((n - 1 : Nat) : ℝ) = (n : ℝ) - 1 := by
      have h1 : 1 ≤ n := hn
      rw [Nat.cast_sub h1, Nat.cast_one]
    rw [hcast]
    have harg : Real.pi * ((n : ℝ) - 1) / (n : ℝ) =
        Real.pi - Real.pi / (n : ℝ) := by
      field_simp
      ring
    rw [harg, Real.cos_pi_sub]
    have hbound := Real.one_sub_sq_div_two_le_cos (x := Real.pi / (n : ℝ))
    have hsq : (Real.pi / (n : ℝ)) ^ 2 = Real.pi ^ 2 / (n : ℝ) ^ 2 := by ring
    rw [hsq] at hbound
    have h4 : Real.pi ^ 2 / (4 * (n : ℝ) ^ 2) = Real.pi ^ 2 / (n : ℝ) ^ 2 / 4 := by
      ring
    rw [h4]
    linarith

/-- Witness for C6 at window length 2 and a single channel. -/
theorem crossfade_window_spec_witness :
    (0 < 2 ∧ 0 < 1 ∧ (0 : Nat) < 1) ∧ gen_window_coef 2 1 0 = 1 :=
  ⟨⟨by decide, by decide, by decide⟩,
   (crossfade_window_spec 2 1 (by decide) (by decide)).2.2.1 0 (by decide)⟩

/-! ## Claim C9: shuffle pins the reference and permutes the tracks -/

/-- Helper: a single in-place swap is precomposition with the
transposition of the two indices. -/
theorem swapIdx_eq_comp {α : Type} (f : Nat → α) (i j : Nat) :
    swapIdx f i j = f ∘ (Equiv.swap i j) := by
  funext k
  simp only [swapIdx, Function.comp_apply, Equiv.swap_apply_def]
  split_ifs <;> rfl

/-- Helper: the random draw of the shuffle loop stays in `[i, n)`. -/
theorem drawIdx_bounds (r : Nat → Nat) (R n i : Nat) (hR : ∀ t, r t < R)
    (hi : i < n) : i ≤ drawIdx r R n i ∧ drawIdx r R n i < n := by
  unfold drawIdx
  constructor
  · exact Nat.le_add_right i _
  · have h0 : 0 < n - i := by omega
    have hlt : r i * (n - i) < R * (n - i) :=
      Nat.mul_lt_mul_of_pos_right (hR i) h0
    have hdiv : r i * (n - i) / R < n - i := by
      apply Nat.div_lt_of_lt_mul
      exact hlt
    omega

/-- Helper: folding in-place swaps over any index list whose swap pairs
stay in `[lo, n)` is precomposition with a permutation fixing everything
outside `[lo, n)`. -/
theorem foldl_swap_exists_perm {α : Type} (j : Nat → Nat) (lo n : Nat) :
    ∀ l : List Nat, (∀ i ∈ l, lo ≤ i ∧ i < n ∧ lo ≤ j i ∧ j i < n) →
    ∃ σ : Equiv.Perm Nat,
      (∀ f : Nat → α, List.foldl (fun g i => swapIdx g i (j i)) f l = f ∘ σ) ∧
      (∀ k, k < lo ∨ n ≤ k → σ k = k) := by
  intro l
  induction l with
  | nil =>
      intro _
      exact ⟨Equiv.refl Nat, fun f => rfl, fun k _ => rfl⟩
  | cons a t ih =>
      intro hmem
      obtain ⟨σt, hσt, hfix⟩ := ih (fun i hi => hmem i (List.mem_cons_of_mem a hi))
      refine ⟨σt.trans (Equiv.swap a (j a)), fun f => ?_, fun k hk => ?_⟩
      · rw [List.foldl_cons, hσt (swapIdx f a (j a)), swapIdx_eq_comp]
        funext k
        simp [Equiv.trans_apply, Function.comp]
      · have ha := hmem a (List.mem_cons_self a t)
        rw [Equiv.trans_apply, hfix k hk]
        apply Equiv.swap_apply_of_ne_of_ne
        · omega
        · omega

/-- Helper: a permutation of the naturals fixing everything at or above
`n` permutes the list `range n` mapped through it. -/
theorem perm_range_of_fix (σ : Equiv.Perm Nat) (n : Nat)
    (hfix : ∀ k, n ≤ k → σ k = k) :
    ((List.range n).map σ).Perm (List.range n) := by
  have hlt : ∀ k, k < n → σ k < n := by
    intro k hk
    by_contra hge
    push_neg at hge
    have h1 : σ (σ k) = σ k := hfix (σ k) hge
    have h2 : σ k = k := σ.injective h1
    omega
  apply List.perm_of_nodup_nodup_toFinset_eq
  · exact (List.nodup_range n).map σ.injective
  · exact List.nodup_range n
  · ext x
    simp only [List.mem_toFinset, List.mem_map, List.mem_range]
    constructor
    · rintro ⟨k, hk, rfl⟩
      exact hlt k hk
    · intro hx
      refine ⟨σ.symm x, ?_, Equiv.apply_symm_apply σ x⟩
      by_contra hge
      push_neg at hge
      have h1 : σ (σ.symm x) = σ.symm x := hfix (σ.symm x) hge
      rw [Equiv.apply_symm_apply] at h1
      omega

/-- C9: shuffling with the reference pinned (`skipFirst = true`) leaves
index 0 in place, and every shuffle (pinned or not) acts as a permutation
of the naturals fixing indices at or above `n`, so the shuffled prefix of
`n` tracks is a permutation of the original `n` tracks — none duplicated
or lost. -/
theorem shuffle_pins_reference_and_permutes {α : Type} (r : Nat → Nat) (R n : Nat)
    (hR : ∀ t, r t < R) (skipFirst : Bool) (f : Nat → α) :
    (skipFirst = true → shuffle_tracks r R n skipFirst f 0 = f 0) ∧
    (∃ σ : Equiv.Perm Nat,
      (∀ k, shuffle_tracks r R n skipFirst f k = f (σ k)) ∧
      ∀ k, n ≤ k → σ k = k) ∧
    ((List.range n).map (shuffle_tracks r R n skipFirst f)).Perm
      ((List.range n).map f) := by
  have hmem : ∀ i ∈ List.range' (if skipFirst then 1 else 0)
      (n - 1 - (if skipFirst then 1 else 0)),
      (if skipFirst then 1 else 0) ≤ i ∧ i < n ∧
        (if skipFirst then 1 else 0) ≤ drawIdx r R n i ∧ drawIdx r R n i < n := by
    intro i hi
    rw [List.mem_range'_1] at hi
    have hin : i < n := by omega
    have hd := drawIdx_bounds r R n i hR hin
    exact ⟨hi.1, hin, le_trans hi.1 hd.1, hd.2⟩
  obtain ⟨σ, hσ, hfix⟩ :=
    foldl_swap_exists_perm (α := α) (drawIdx r R n) (if skipFirst then 1 else 0) n _ hmem
  have hshuffle : shuffle_tracks r R n skipFirst f = f ∘ σ := by
    unfold shuffle_tracks
    exact hσ f
  refine ⟨?_, ⟨σ, ?_, fun k hk => hfix k (Or.inr hk)⟩, ?_⟩
  · intro hsf
    rw [hshuffle]
    have h0 : σ 0 = 0 := hfix 0 (Or.inl (by rw [hsf]; norm_num))
    simp [Function.comp, h0]
  · intro k
    rw [hshuffle]
    rfl
  · rw [hshuffle]
    have hmm : (List.range n).map (f ∘ σ) = ((List.range n).map σ).map f := by
      rw [List.map_map]
    rw [hmm]
    exact (perm_range_of_fix σ n (fun k hk => hfix k (Or.inr hk))).map f

/-- Witness for C9: three tracks, degenerate random source (always 0),
reference pinned. -/
theorem shuffle_pins_reference_witness :
    (∀ t : Nat, (fun _ : Nat => 0) t < 1) ∧
    shuffle_tracks (fun _ => 0) 1 3 true (fun k : Nat => k) 0 = (fun k : Nat => k) 0 ∧
    ((List.range 3).map (shuffle_tracks (fun _ => 0) 1 3 true (fun k : Nat => k))).Perm
      ((List.range 3).map (fun k : Nat => k)) :=
  ⟨fun _ => Nat.zero_lt_one,
   (shuffle_pins_reference_and_permutes (fun _ => 0) 1 3 (fun _ => Nat.zero_lt_one)
      true (fun k => k)).1 rfl,
   (shuffle_pins_reference_and_permutes (fun _ => 0) 1 3 (fun _ => Nat.zero_lt_one)
      true (fun k => k)).2.2⟩
